import Mathlib

/-!
Verification development for the BinaryTreeCpp repository (src/main.cpp).

The C++ program manipulates heap-allocated binary trees of `int` values
(`struct Node { int data; shared_ptr<Node> right, left; }`).  We embed a
tree as the inductive type `NodePtr`: a null `NodePtr` becomes `NodePtr.nil`, a
node becomes `NodePtr.node data left right`.  C++ `int` values are embedded
as `Int` (no claim in this development distinguishes wrap-around
behaviour: every arithmetic identity proved here is computed by the same
additions on both sides).

Printing with `std::cout << v << " "` is embedded as appending `v` to an
output list, so every traversal denotes a `List Int`.

Run-time errors (dereferencing a null pointer, `top`/`pop` on an empty
`std::stack`) are embedded as `Option`: a function returns `none` exactly
when the C++ code would perform such an illegal operation.
-/

inductive NodePtr where
  | nil : NodePtr
  | node (data : Int) (left : NodePtr) (right : NodePtr) : NodePtr
deriving DecidableEq, Repr

namespace NodePtr

/-- Number of nodes of a tree (used as a termination measure for the
iterative stack machines). -/
def size : NodePtr → Nat
  | .nil => 0
  | .node _ l r => 1 + l.size + r.size

/-- Whether the embedded `NodePtr` is null. -/
def isNil : NodePtr → Bool
  | .nil => true
  | .node _ _ _ => false

/-- Sum of all `data` fields of a tree. -/
def sumValues : NodePtr → Int
  | .nil => 0
  | .node d l r => d + sumValues l + sumValues r

end NodePtr

/-- `inorderRecursive` (src/main.cpp lines 43-51): left subtree, the node
itself, right subtree.  The printed output is returned as a list. -/
def inorderRecursive : NodePtr → List Int
  | .nil => []
  | .node d l r => inorderRecursive l ++ [d] ++ inorderRecursive r

/-- `preorderRecursive` (src/main.cpp lines 85-94): the node itself, left
subtree, right subtree. -/
def preorderRecursive : NodePtr → List Int
  | .nil => []
  | .node d l r => d :: (preorderRecursive l ++ preorderRecursive r)

/-- `postorderRecursive` (src/main.cpp lines 127-135).  Note that the C++
body calls `inorderRecursive` on both subtrees (not itself) before
printing the node, and the embedding reproduces exactly that. -/
def postorderRecursive : NodePtr → List Int
  | .nil => []
  | .node d l r => inorderRecursive l ++ inorderRecursive r ++ [d]

/-- The loop of `inorderIterative` (src/main.cpp lines 53-75).  State:
the explicit `std::stack` (top = list head), the local `curr`, and the
output accumulated so far.  The loop runs while the stack is non-empty or
`curr` is non-null; with `curr` null it pushes `curr` and then evaluates
`curr->left` (a null dereference, `none`); with `curr` non-null it reads
`stack.top()` (`none` on an empty stack), pops it, prints the popped
node's data (`none` if the popped pointer is null) and moves to its right
child. -/
def inorderIterLoop : List NodePtr → NodePtr → List Int → Option (List Int)
  | [], NodePtr.nil, out => some out
  | _ :: _, NodePtr.nil, _ => none
  | [], NodePtr.node _ _ _, _ => none
  | NodePtr.nil :: _, NodePtr.node _ _ _, _ => none
  | NodePtr.node d _ pr :: rest, NodePtr.node _ _ _, out => inorderIterLoop rest pr (out ++ [d])

/-- `inorderIterative` (src/main.cpp lines 53-75): start the loop with an
empty stack and `curr` at the root. -/
def inorderIterative (t : NodePtr) : Option (List Int) :=
  inorderIterLoop [] t []

/-- Total size of the trees held on a stack of trees. -/
def stackSize (s : List NodePtr) : Nat := (s.map NodePtr.size).sum

/-- The loop of `preorderIterative` (src/main.cpp lines 101-116): pop a
node, print it, push its right child then its left child (each only when
non-null), so the left child is processed first. -/
def preorderIterLoop : List NodePtr → List Int → Option (List Int)
  | [], out => some out
  | NodePtr.nil :: _, _ => none
  | NodePtr.node d l r :: rest, out =>
    preorderIterLoop ((if l.isNil then [] else [l]) ++ (if r.isNil then [] else [r]) ++ rest)
      (out ++ [d])
termination_by s _ => stackSize s
decreasing_by
  simp only [stackSize, List.map_append, List.sum_append, List.map_cons, List.sum_cons]
  cases l <;> cases r <;> simp [NodePtr.isNil, NodePtr.size] <;> omega

/-- `preorderIterative` (src/main.cpp lines 96-117): return at a null
root, otherwise run the loop with the root pushed. -/
def preorderIterative (t : NodePtr) : Option (List Int) :=
  match t with
  | .nil => some []
  | _ => preorderIterLoop [t] []

/-- The first loop of `postorderIterative` (src/main.cpp lines 144-158):
pop a node, push its data onto the `out` stack, push its left child then
its right child (each only when non-null).  `acc` records the values in
the order they were pushed onto `out`. -/
def postorderIterLoop : List NodePtr → List Int → Option (List Int)
  | [], acc => some acc
  | NodePtr.nil :: _, _ => none
  | NodePtr.node d l r :: rest, acc =>
    postorderIterLoop ((if r.isNil then [] else [r]) ++ (if l.isNil then [] else [l]) ++ rest)
      (acc ++ [d])
termination_by s _ => stackSize s
decreasing_by
  simp only [stackSize, List.map_append, List.sum_append, List.map_cons, List.sum_cons]
  cases l <;> cases r <;> simp [NodePtr.isNil, NodePtr.size] <;> omega

/-- `postorderIterative` (src/main.cpp lines 137-164): run the first loop,
then print the `out` stack top-first, i.e. the reverse of the order in
which values were pushed. -/
def postorderIterative (t : NodePtr) : Option (List Int) :=
  match t with
  | .nil => some []
  | _ => (postorderIterLoop [t] []).map List.reverse

/-- `isIdentical` (src/main.cpp lines 168-173).  The C++ function returns
an `int` used as a boolean (`1` / the value of a `&&`-chain); we embed it
as `Bool`. -/
def isIdentical : NodePtr → NodePtr → Bool
  | .nil, .nil => true
  | .node dx lx rx, .node dy ly ry =>
      dx == dy && isIdentical lx ly && isIdentical rx ry
  | _, _ => false

/-- `sumPostorder` (src/main.cpp lines 231-238).  The C++ function mutates
`node->data` in place and returns an `int`; we embed it as returning the
tree left in the heap together with the returned value: at a node, both
children are transformed first, `data` is overwritten with
`leftSum + rightSum`, and `node->data + prevData` is returned. -/
def sumPostorder : NodePtr → NodePtr × Int
  | .nil => (.nil, 0)
  | .node d l r =>
    let lres := sumPostorder l
    let rres := sumPostorder r
    let newData := lres.2 + rres.2
    (.node newData lres.1 rres.1, newData + d)

/-- The example tree built in `main` (src/main.cpp lines 283-290). -/
def sampleTree : NodePtr :=
  .node 1
    (.node 2 (.node 4 .nil .nil) .nil)
    (.node 3
      (.node 5 (.node 7 .nil .nil) (.node 8 .nil .nil))
      (.node 6 .nil .nil))

/-- A three-node chain: root 1, left child 2, whose right child is 3. -/
def tChain : NodePtr := .node 1 (.node 2 .nil (.node 3 .nil .nil)) .nil

/-- Root 1 with a single left leaf 2. -/
def tLeft2 : NodePtr := .node 1 (.node 2 .nil .nil) .nil

/-- A three-node left chain 1 - 2 - 3. -/
def tDeep3 : NodePtr := .node 1 (.node 2 (.node 3 .nil .nil) .nil) .nil

/-!
The `std::map<int, std::pair<int,int>>` used by the view functions is
embedded as a key-sorted association list by strictly increasing key, the
order in which `std::map` iterates.  An entry `(k, v, lv)` stands for
`map[k] == {v, lv}`: key `k` is the horizontal distance, `v` the stored
node value, `lv` the stored level.
-/

/-- The map of the view functions: entries `(key, value, level)`,
maintained in strictly increasing key order. -/
abbrev IntMap := List (Int × Int × Int)

/-- Lookup, `map.find(k)`: the stored `(value, level)` pair, if any. -/
def mapFind (k : Int) : IntMap → Option (Int × Int)
  | [] => none
  | (k1, v, lv) :: rest => if k = k1 then some (v, lv) else mapFind k rest

/-- Ordered insertion or replacement, `map[k] = {v, lv}`. -/
def mapInsert (k v lv : Int) : IntMap → IntMap
  | [] => [(k, v, lv)]
  | (k1, v1, lv1) :: rest =>
    if k < k1 then (k, v, lv) :: (k1, v1, lv1) :: rest
    else if k = k1 then (k, v, lv) :: rest
    else (k1, v1, lv1) :: mapInsert k v lv rest

/-- The recursive overload of `printBottom` (src/main.cpp lines 175-188).
`map[dist]` value-initialises a `{0, 0}` entry when `dist` is absent;
then, when `level >= map[dist].second`, the entry is overwritten with the
node's value and level; finally the left and right subtrees are visited
with distance one less / one more and level one greater. -/
def printBottomAux : NodePtr → Int → Int → IntMap → IntMap
  | .nil, _, _, m => m
  | .node d l r, dist, level, m =>
    let m0 := match mapFind dist m with
      | some _ => m
      | none => mapInsert dist 0 0 m
    let m1 := if ((mapFind dist m0).getD (0, 0)).2 ≤ level then mapInsert dist d level m0
      else m0
    printBottomAux r (dist + 1) (level + 1) (printBottomAux l (dist - 1) (level + 1) m1)

/-- The one-argument overload of `printBottom` (src/main.cpp lines
190-205): fill the map starting from the root at distance 0, level 0,
then print the stored values in map (ascending key) order. -/
def printBottom (root : NodePtr) : List Int :=
  (printBottomAux root 0 0 []).map (fun e => e.2.1)

/-- The recursive overload of `printTop` (src/main.cpp lines 207-218).
The entry is written only when `dist` is absent from the map or the new
level is strictly smaller than the recorded one. -/
def printTopAux : NodePtr → Int → Int → IntMap → IntMap
  | .nil, _, _, m => m
  | .node d l r, dist, level, m =>
    let m1 := match mapFind dist m with
      | none => mapInsert dist d level m
      | some p => if level < p.2 then mapInsert dist d level m else m
    printTopAux r (dist + 1) (level + 1) (printTopAux l (dist - 1) (level + 1) m1)

/-- The one-argument overload of `printTop` (src/main.cpp lines 220-229). -/
def printTop (root : NodePtr) : List Int :=
  (printTopAux root 0 0 []).map (fun e => e.2.1)

/-!
Specification-side definitions for the two views.  `nodesPre` lists every
node of the tree in preorder (the order in which the view functions visit
them) together with its horizontal distance and level; the winner
predicates state, in the spec's words, which node's value an output entry
must carry.
-/

/-- All nodes of a tree in preorder, as `(distance, value, level)`
triples, starting from the given distance and level. -/
def nodesPre : NodePtr → Int → Int → List (Int × Int × Int)
  | .nil, _, _ => []
  | .node d l r, dist, level =>
    (dist, d, level) :: (nodesPre l (dist - 1) (level + 1) ++ nodesPre r (dist + 1) (level + 1))

/-- The `(value, level)` pairs of the nodes at one horizontal distance,
in visiting (preorder) order. -/
def atKey (k : Int) (xs : List (Int × Int × Int)) : List (Int × Int) :=
  (xs.filter (fun e => e.1 == k)).map (fun e => e.2)

/-- Spec predicate for the bottom view: among the `(value, level)` pairs
`ys` seen at one distance, the winner `w` is a node with maximal level
such that every node visited after it has strictly smaller level — the
node with the greatest level, ties resolved in favour of the later
(preorder) visit. -/
def IsBottomWinner (ys : List (Int × Int)) (w : Int × Int) : Prop :=
  ∃ as bs, ys = as ++ w :: bs ∧ (∀ x ∈ as, x.2 ≤ w.2) ∧ (∀ x ∈ bs, x.2 < w.2)

/-- Spec predicate for the top view: the winner `w` is a node with
minimal level such that every node visited before it has strictly greater
level — the node with the smallest level, ties resolved in favour of the
earliest (preorder) visit, which is never overwritten on equal level. -/
def IsTopWinner (ys : List (Int × Int)) (w : Int × Int) : Prop :=
  ∃ as bs, ys = as ++ w :: bs ∧ (∀ x ∈ as, w.2 < x.2) ∧ (∀ x ∈ bs, w.2 ≤ x.2)

/-- The map update performed by `printBottomAux` at one visited node
`(dist, value, level)`. -/
def bottomStep (m : IntMap) (e : Int × Int × Int) : IntMap :=
  let m0 := match mapFind e.1 m with
    | some _ => m
    | none => mapInsert e.1 0 0 m
  if ((mapFind e.1 m0).getD (0, 0)).2 ≤ e.2.2 then mapInsert e.1 e.2.1 e.2.2 m0 else m0

/-- The map update performed by `printTopAux` at one visited node. -/
def topStep (m : IntMap) (e : Int × Int × Int) : IntMap :=
  match mapFind e.1 m with
  | none => mapInsert e.1 e.2.1 e.2.2 m
  | some p => if e.2.2 < p.2 then mapInsert e.1 e.2.1 e.2.2 m else m

/-- What `bottomStep` does to the entry of the key being visited:
compare against the recorded level (`0` for a fresh default entry) and
overwrite on `recorded ≤ new`. -/
def bottomUpd (o : Option (Int × Int)) (e : Int × Int) : Option (Int × Int) :=
  let cur := o.getD (0, 0)
  if cur.2 ≤ e.2 then some e else some cur

/-- What `topStep` does to the entry of the key being visited: keep the
first entry unless the new level is strictly smaller. -/
def topUpd (o : Option (Int × Int)) (e : Int × Int) : Option (Int × Int) :=
  match o with
  | none => some e
  | some p => if e.2 < p.2 then some e else some p

/-!
State-threaded variants, for the frame property.  Mutation of the heap is
embedded by letting every function return the tree it was passed as that
tree stands in the heap after the call: each recursive call yields the
(possibly updated) subtree, and the node is rebuilt from its `data` field
(updated only where the C++ body assigns to it — which none of the
functions below does) and the returned children.  `sumPostorder` above is
the same embedding for the one function that does assign to `data`.
-/

/-- `inorderRecursive`, threaded: output together with the tree left in
the heap. -/
def inorderRecursiveT : NodePtr → NodePtr × List Int
  | .nil => (.nil, [])
  | .node d l r =>
    let lres := inorderRecursiveT l
    let rres := inorderRecursiveT r
    (.node d lres.1 rres.1, lres.2 ++ [d] ++ rres.2)

/-- `preorderRecursive`, threaded. -/
def preorderRecursiveT : NodePtr → NodePtr × List Int
  | .nil => (.nil, [])
  | .node d l r =>
    let lres := preorderRecursiveT l
    let rres := preorderRecursiveT r
    (.node d lres.1 rres.1, d :: (lres.2 ++ rres.2))

/-- `postorderRecursive`, threaded; as in the source, the subtrees are
traversed by `inorderRecursive`. -/
def postorderRecursiveT : NodePtr → NodePtr × List Int
  | .nil => (.nil, [])
  | .node d l r =>
    let lres := inorderRecursiveT l
    let rres := inorderRecursiveT r
    (.node d lres.1 rres.1, lres.2 ++ rres.2 ++ [d])

/-- `isIdentical`, threaded over both trees, with the source's
short-circuit evaluation: the recursive calls run only when the data
fields agree, and the right calls only when the left subtrees compared
identical. -/
def isIdenticalT : NodePtr → NodePtr → NodePtr × NodePtr × Bool
  | .nil, .nil => (.nil, .nil, true)
  | .nil, .node dy ly ry => (.nil, .node dy ly ry, false)
  | .node dx lx rx, .nil => (.node dx lx rx, .nil, false)
  | .node dx lx rx, .node dy ly ry =>
    if dx == dy then
      let lres := isIdenticalT lx ly
      if lres.2.2 then
        let rres := isIdenticalT rx ry
        (.node dx lres.1 rres.1, .node dy lres.2.1 rres.2.1, rres.2.2)
      else (.node dx lres.1 rx, .node dy lres.2.1 ry, false)
    else (.node dx lx rx, .node dy ly ry, false)

/-- The recursive `printBottom` overload, threaded. -/
def printBottomAuxT : NodePtr → Int → Int → IntMap → NodePtr × IntMap
  | .nil, _, _, m => (.nil, m)
  | .node d l r, dist, level, m =>
    let m0 := match mapFind dist m with
      | some _ => m
      | none => mapInsert dist 0 0 m
    let m1 := if ((mapFind dist m0).getD (0, 0)).2 ≤ level then mapInsert dist d level m0
      else m0
    let lres := printBottomAuxT l (dist - 1) (level + 1) m1
    let rres := printBottomAuxT r (dist + 1) (level + 1) lres.2
    (.node d lres.1 rres.1, rres.2)

/-- The recursive `printTop` overload, threaded. -/
def printTopAuxT : NodePtr → Int → Int → IntMap → NodePtr × IntMap
  | .nil, _, _, m => (.nil, m)
  | .node d l r, dist, level, m =>
    let m1 := match mapFind dist m with
      | none => mapInsert dist d level m
      | some p => if level < p.2 then mapInsert dist d level m else m
    let lres := printTopAuxT l (dist - 1) (level + 1) m1
    let rres := printTopAuxT r (dist + 1) (level + 1) lres.2
    (.node d lres.1 rres.1, rres.2)

/-!
Functions used only to state claims: the postorder of the order
definition, the transformed-children-sum predicate, and the non-leaf sum.
-/

/-- Modelled from the spec: the postorder order definition — the full
postorder sequence of the left subtree, then of the right subtree, then
the node's own value. -/
def postorderOfSpec : NodePtr → List Int
  | .nil => []
  | .node d l r => postorderOfSpec l ++ postorderOfSpec r ++ [d]

/-- Whether every node's value equals the sum of all values stored in its
children's subtrees (the reading of claim C4 applied to the transformed
tree, whose values are the already-rewritten ones). -/
def childrenSumNew : NodePtr → Bool
  | .nil => true
  | .node d l r =>
    (d == NodePtr.sumValues l + NodePtr.sumValues r) && childrenSumNew l && childrenSumNew r

/-- The tree with every node's value replaced by the sum of the original
values of its children's subtrees (0 for an absent child). -/
def origChildSums : NodePtr → NodePtr
  | .nil => .nil
  | .node _ l r =>
    .node (NodePtr.sumValues l + NodePtr.sumValues r) (origChildSums l) (origChildSums r)

/-- Whether a node is a leaf (a node both of whose children are absent). -/
def NodePtr.isLeaf : NodePtr → Bool
  | .node _ .nil .nil => true
  | _ => false

/-- Sum of the values of the non-leaf nodes of a tree. -/
def nonLeafSum : NodePtr → Int
  | .nil => 0
  | .node d l r =>
    (if (NodePtr.node d l r).isLeaf then 0 else d) + nonLeafSum l + nonLeafSum r

/-! Basic lemmas about the map model. -/

theorem mapFind_insert_self (k v lv : Int) :
    ∀ m : IntMap, mapFind k (mapInsert k v lv m) = some (v, lv) := by
  intro m
  induction m with
  | nil => simp [mapInsert, mapFind]
  | cons y rest ih =>
    obtain ⟨k1, v1, lv1⟩ := y
    by_cases h1 : k < k1
    · simp [mapInsert, h1, mapFind]
    · by_cases h2 : k = k1
      · simp [mapInsert, h1, h2, mapFind]
      · simp [mapInsert, h1, h2, mapFind, ih]

theorem mapFind_insert_ne (k q v lv : Int) (h : q ≠ k) :
    ∀ m : IntMap, mapFind q (mapInsert k v lv m) = mapFind q m := by
  intro m
  induction m with
  | nil => simp [mapInsert, mapFind, h]
  | cons y rest ih =>
    obtain ⟨k1, v1, lv1⟩ := y
    by_cases h1 : k < k1
    · simp [mapInsert, h1, mapFind, h]
    · by_cases h2 : k = k1
      · subst h2
        simp [mapInsert, h1, mapFind, h]
      · simp [mapInsert, h1, h2, mapFind, ih]

theorem mem_mapInsert (k v lv : Int) :
    ∀ (m : IntMap) (x : Int × Int × Int),
      x ∈ mapInsert k v lv m → x = (k, v, lv) ∨ x ∈ m := by
  intro m
  induction m with
  | nil => simp [mapInsert]
  | cons y rest ih =>
    obtain ⟨k1, v1, lv1⟩ := y
    intro x hx
    by_cases h1 : k < k1
    · simp only [mapInsert, if_pos h1, List.mem_cons] at hx
      rcases hx with h | h | h
      · exact Or.inl h
      · exact Or.inr (by simp [h])
      · exact Or.inr (List.mem_cons_of_mem _ h)
    · by_cases h2 : k = k1
      · simp only [mapInsert, if_neg h1, if_pos h2, List.mem_cons] at hx
        rcases hx with h | h
        · exact Or.inl h
        · exact Or.inr (List.mem_cons_of_mem _ h)
      · simp only [mapInsert, if_neg h1, if_neg h2, List.mem_cons] at hx
        rcases hx with h | h
        · exact Or.inr (by simp [h])
        · rcases ih x h with h3 | h3
          · exact Or.inl h3
          · exact Or.inr (List.mem_cons_of_mem _ h3)

theorem mapInsert_pairwise (k v lv : Int) :
    ∀ m : IntMap, m.Pairwise (fun a b => a.1 < b.1) →
      (mapInsert k v lv m).Pairwise (fun a b => a.1 < b.1) := by
  intro m
  induction m with
  | nil => intro _; simp [mapInsert]
  | cons y rest ih =>
    obtain ⟨k1, v1, lv1⟩ := y
    intro hp
    rcases List.pairwise_cons.mp hp with ⟨hb, hrest⟩
    by_cases h1 : k < k1
    · simp only [mapInsert, if_pos h1]
      refine List.pairwise_cons.mpr ⟨?_, hp⟩
      intro x hx
      rcases List.mem_cons.mp hx with h | h
      · simpa [h] using h1
      · exact lt_trans h1 (hb x h)
    · by_cases h2 : k = k1
      · simp only [mapInsert, if_neg h1, if_pos h2]
        refine List.pairwise_cons.mpr ⟨?_, hrest⟩
        intro x hx
        exact h2 ▸ hb x hx
      · simp only [mapInsert, if_neg h1, if_neg h2]
        refine List.pairwise_cons.mpr ⟨?_, ih hrest⟩
        intro x hx
        rcases mem_mapInsert k v lv rest x hx with h | h
        · have : k1 < k := by omega
          simpa [h] using this
        · exact hb x h

/-! The per-key effect of one visit. -/

theorem bottomStep_find_self (m : IntMap) (e : Int × Int × Int) :
    mapFind e.1 (bottomStep m e) = bottomUpd (mapFind e.1 m) e.2 := by
  obtain ⟨k, v, lv⟩ := e
  simp only [bottomStep, bottomUpd]
  cases h : mapFind k m with
  | none =>
    simp only [h, mapFind_insert_self, Option.getD_some, Option.getD_none]
    by_cases hc : (0 : Int) ≤ lv
    · simp [hc, mapFind_insert_self]
    · simp [hc, mapFind_insert_self]
  | some p =>
    simp only [h, Option.getD_some]
    by_cases hc : p.2 ≤ lv
    · simp [hc, mapFind_insert_self]
    · simp [hc, h]

theorem bottomStep_find_ne (q : Int) (m : IntMap) (e : Int × Int × Int) (h : q ≠ e.1) :
    mapFind q (bottomStep m e) = mapFind q m := by
  obtain ⟨k, v, lv⟩ := e
  simp only [bottomStep]
  cases h1 : mapFind k m with
  | none =>
    simp only [h1, mapFind_insert_self, Option.getD_some]
    by_cases hc : (0 : Int) ≤ lv
    · simp [hc, mapFind_insert_ne _ _ _ _ h]
    · simp [hc, mapFind_insert_ne _ _ _ _ h]
  | some p =>
    simp only [h1, Option.getD_some]
    by_cases hc : p.2 ≤ lv
    · simp [hc, mapFind_insert_ne _ _ _ _ h]
    · simp [hc]

theorem topStep_find_self (m : IntMap) (e : Int × Int × Int) :
    mapFind e.1 (topStep m e) = topUpd (mapFind e.1 m) e.2 := by
  obtain ⟨k, v, lv⟩ := e
  simp only [topStep, topUpd]
  cases h : mapFind k m with
  | none => simp [h, mapFind_insert_self]
  | some p =>
    simp only [h]
    by_cases hc : lv < p.2
    · simp [hc, mapFind_insert_self]
    · simp [hc, h]

theorem topStep_find_ne (q : Int) (m : IntMap) (e : Int × Int × Int) (h : q ≠ e.1) :
    mapFind q (topStep m e) = mapFind q m := by
  obtain ⟨k, v, lv⟩ := e
  simp only [topStep]
  cases h1 : mapFind k m with
  | none => simp [h1, mapFind_insert_ne _ _ _ _ h]
  | some p =>
    simp only [h1]
    by_cases hc : lv < p.2
    · simp [hc, mapFind_insert_ne _ _ _ _ h]
    · simp [hc]

/-! The view functions are the fold of their step over the preorder node
list. -/

theorem printBottomAux_eq_foldl (t : NodePtr) :
    ∀ (dist level : Int) (m : IntMap),
      printBottomAux t dist level m = (nodesPre t dist level).foldl bottomStep m := by
  induction t with
  | nil => intro dist level m; rfl
  | node d l r ihl ihr =>
    intro dist level m
    simp only [printBottomAux, nodesPre, List.foldl_cons, List.foldl_append, ihl, ihr]
    rfl

theorem printTopAux_eq_foldl (t : NodePtr) :
    ∀ (dist level : Int) (m : IntMap),
      printTopAux t dist level m = (nodesPre t dist level).foldl topStep m := by
  induction t with
  | nil => intro dist level m; rfl
  | node d l r ihl ihr =>
    intro dist level m
    simp only [printTopAux, nodesPre, List.foldl_cons, List.foldl_append, ihl, ihr]
    rfl

/-! Looking one key up in the fold over all visits is the fold of the
per-key update over the visits at that key. -/

theorem mapFind_foldl_bottomStep (k : Int) :
    ∀ (xs : List (Int × Int × Int)) (m : IntMap),
      mapFind k (xs.foldl bottomStep m) = (atKey k xs).foldl bottomUpd (mapFind k m) := by
  intro xs
  induction xs with
  | nil => intro m; rfl
  | cons e xs ih =>
    intro m
    by_cases h : e.1 = k
    · have ha : atKey k (e :: xs) = e.2 :: atKey k xs := by simp [atKey, h]
      rw [List.foldl_cons, ih, ha, List.foldl_cons]
      rw [← h, bottomStep_find_self]
    · have ha : atKey k (e :: xs) = atKey k xs := by simp [atKey, h]
      rw [List.foldl_cons, ih, ha, bottomStep_find_ne k m e (fun hq => h hq.symm)]

theorem mapFind_foldl_topStep (k : Int) :
    ∀ (xs : List (Int × Int × Int)) (m : IntMap),
      mapFind k (xs.foldl topStep m) = (atKey k xs).foldl topUpd (mapFind k m) := by
  intro xs
  induction xs with
  | nil => intro m; rfl
  | cons e xs ih =>
    intro m
    by_cases h : e.1 = k
    · have ha : atKey k (e :: xs) = e.2 :: atKey k xs := by simp [atKey, h]
      rw [List.foldl_cons, ih, ha, List.foldl_cons]
      rw [← h, topStep_find_self]
    · have ha : atKey k (e :: xs) = atKey k xs := by simp [atKey, h]
      rw [List.foldl_cons, ih, ha, topStep_find_ne k m e (fun hq => h hq.symm)]

/-! Characterisation of the per-key folds. -/

theorem foldl_bottomUpd_from_some :
    ∀ (ys : List (Int × Int)) (w p : Int × Int),
      ys.foldl bottomUpd (some w) = some p →
      (p = w ∧ ∀ x ∈ ys, x.2 < w.2) ∨ (w.2 ≤ p.2 ∧ IsBottomWinner ys p) := by
  intro ys
  induction ys with
  | nil =>
    intro w p h
    exact Or.inl ⟨(Option.some_inj.mp h).symm, by simp⟩
  | cons y ys ih =>
    intro w p h
    rw [List.foldl_cons] at h
    by_cases hc : w.2 ≤ y.2
    · have hupd : bottomUpd (some w) y = some y := by simp [bottomUpd, hc]
      rw [hupd] at h
      rcases ih y p h with ⟨hpw, hall⟩ | ⟨hle, as, bs, hsplit, ha, hb⟩
      · subst hpw
        refine Or.inr ⟨hc, [], ys, by simp, by simp, hall⟩
      · refine Or.inr ⟨le_trans hc hle, y :: as, bs, by simp [hsplit], ?_, hb⟩
        intro x hx
        rcases List.mem_cons.mp hx with hx | hx
        · exact hx ▸ hle
        · exact ha x hx
    · have hupd : bottomUpd (some w) y = some w := by simp [bottomUpd, hc]
      rw [hupd] at h
      rcases ih w p h with ⟨hpw, hall⟩ | ⟨hle, as, bs, hsplit, ha, hb⟩
      · refine Or.inl ⟨hpw, ?_⟩
        intro x hx
        rcases List.mem_cons.mp hx with hx | hx
        · subst hpw; exact hx ▸ (by omega)
        · exact hall x hx
      · refine Or.inr ⟨hle, y :: as, bs, by simp [hsplit], ?_, hb⟩
        intro x hx
        rcases List.mem_cons.mp hx with hx | hx
        · subst hx; omega
        · exact ha x hx

theorem bottom_winner_of_foldl (ys : List (Int × Int)) (p : Int × Int)
    (hpos : ∀ x ∈ ys, 0 ≤ x.2) (h : ys.foldl bottomUpd none = some p) :
    IsBottomWinner ys p := by
  cases ys with
  | nil => simp [List.foldl_nil] at h
  | cons y ys =>
    rw [List.foldl_cons] at h
    have h0 : (0 : Int) ≤ y.2 := hpos y (by simp)
    have hupd : bottomUpd none y = some y := by simp [bottomUpd, h0]
    rw [hupd] at h
    rcases foldl_bottomUpd_from_some ys y p h with ⟨hpw, hall⟩ | ⟨hle, as, bs, hsplit, ha, hb⟩
    · exact ⟨[], ys, by simp [hpw], by simp, hpw ▸ hall⟩
    · refine ⟨y :: as, bs, by simp [hsplit], ?_, hb⟩
      intro x hx
      rcases List.mem_cons.mp hx with hx | hx
      · exact hx ▸ hle
      · exact ha x hx

theorem foldl_topUpd_from_some :
    ∀ (ys : List (Int × Int)) (w p : Int × Int),
      ys.foldl topUpd (some w) = some p →
      (p = w ∧ ∀ x ∈ ys, w.2 ≤ x.2) ∨ (p.2 < w.2 ∧ IsTopWinner ys p) := by
  intro ys
  induction ys with
  | nil =>
    intro w p h
    exact Or.inl ⟨(Option.some_inj.mp h).symm, by simp⟩
  | cons y ys ih =>
    intro w p h
    rw [List.foldl_cons] at h
    by_cases hc : y.2 < w.2
    · have hupd : topUpd (some w) y = some y := by simp [topUpd, hc]
      rw [hupd] at h
      rcases ih y p h with ⟨hpw, hall⟩ | ⟨hlt, as, bs, hsplit, ha, hb⟩
      · subst hpw
        refine Or.inr ⟨hc, [], ys, by simp, by simp, hall⟩
      · refine Or.inr ⟨lt_trans hlt hc, y :: as, bs, by simp [hsplit], ?_, hb⟩
        intro x hx
        rcases List.mem_cons.mp hx with hx | hx
        · exact hx ▸ hlt
        · exact ha x hx
    · have hupd : topUpd (some w) y = some w := by simp [topUpd, hc]
      rw [hupd] at h
      rcases ih w p h with ⟨hpw, hall⟩ | ⟨hlt, as, bs, hsplit, ha, hb⟩
      · refine Or.inl ⟨hpw, ?_⟩
        intro x hx
        rcases List.mem_cons.mp hx with hx | hx
        · subst hpw; exact hx ▸ (by omega)
        · exact hall x hx
      · refine Or.inr ⟨hlt, y :: as, bs, by simp [hsplit], ?_, hb⟩
        intro x hx
        rcases List.mem_cons.mp hx with hx | hx
        · subst hx; omega
        · exact ha x hx

theorem top_winner_of_foldl (ys : List (Int × Int)) (p : Int × Int)
    (h : ys.foldl topUpd none = some p) : IsTopWinner ys p := by
  cases ys with
  | nil => simp [List.foldl_nil] at h
  | cons y ys =>
    rw [List.foldl_cons] at h
    have hupd : topUpd none y = some y := rfl
    rw [hupd] at h
    rcases foldl_topUpd_from_some ys y p h with ⟨hpw, hall⟩ | ⟨hlt, as, bs, hsplit, ha, hb⟩
    · exact ⟨[], ys, by simp [hpw], by simp, hpw ▸ hall⟩
    · refine ⟨y :: as, bs, by simp [hsplit], ?_, hb⟩
      intro x hx
      rcases List.mem_cons.mp hx with hx | hx
      · exact hx ▸ hlt
      · exact ha x hx

/-! Domain and ordering of the result map. -/

theorem bottomUpd_isSome (o : Option (Int × Int)) (e : Int × Int) :
    (bottomUpd o e).isSome = true := by
  show (if (o.getD (0, 0)).2 ≤ e.2 then some e else some (o.getD (0, 0))).isSome = true
  by_cases hc : (o.getD (0, 0)).2 ≤ e.2
  · rw [if_pos hc]; rfl
  · rw [if_neg hc]; rfl

theorem topUpd_isSome (o : Option (Int × Int)) (e : Int × Int) :
    (topUpd o e).isSome = true := by
  unfold topUpd
  split
  · rfl
  · split <;> rfl

theorem foldl_bottomUpd_isSome :
    ∀ (ys : List (Int × Int)) (o : Option (Int × Int)), ys ≠ [] →
      ((ys.foldl bottomUpd o).isSome = true) := by
  intro ys
  induction ys with
  | nil => intro o h; exact absurd rfl h
  | cons y ys ih =>
    intro o _
    rw [List.foldl_cons]
    cases hys : ys with
    | nil => simpa [hys] using bottomUpd_isSome o y
    | cons z zs => exact hys ▸ ih (bottomUpd o y) (by simp [hys])

theorem foldl_topUpd_isSome :
    ∀ (ys : List (Int × Int)) (o : Option (Int × Int)), ys ≠ [] →
      ((ys.foldl topUpd o).isSome = true) := by
  intro ys
  induction ys with
  | nil => intro o h; exact absurd rfl h
  | cons y ys ih =>
    intro o _
    rw [List.foldl_cons]
    cases hys : ys with
    | nil => simpa [hys] using topUpd_isSome o y
    | cons z zs => exact hys ▸ ih (topUpd o y) (by simp [hys])

theorem atKey_ne_nil_iff (k : Int) (xs : List (Int × Int × Int)) :
    atKey k xs ≠ [] ↔ k ∈ xs.map (fun e => e.1) := by
  constructor
  · intro h
    rcases List.exists_mem_of_ne_nil _ h with ⟨x, hx⟩
    simp only [atKey, List.mem_map] at hx
    rcases hx with ⟨e, he, _⟩
    rcases List.mem_filter.mp he with ⟨hmem, hk⟩
    exact List.mem_map.mpr ⟨e, hmem, by simpa using hk⟩
  · intro h hnil
    rcases List.mem_map.mp h with ⟨e, he, hk⟩
    have : e.2 ∈ atKey k xs := by
      simp only [atKey, List.mem_map]
      exact ⟨e, List.mem_filter.mpr ⟨he, by simpa using hk⟩, rfl⟩
    rw [hnil] at this
    exact absurd this (List.not_mem_nil _)

/-- Every node listed by `nodesPre` lies at or below the starting level. -/
theorem nodesPre_level_le (t : NodePtr) :
    ∀ (dist level : Int), ∀ e ∈ nodesPre t dist level, level ≤ e.2.2 := by
  induction t with
  | nil => intro dist level e he; simp [nodesPre] at he
  | node d l r ihl ihr =>
    intro dist level e he
    simp only [nodesPre, List.mem_cons, List.mem_append] at he
    rcases he with he | he | he
    · subst he; simp
    · have := ihl (dist - 1) (level + 1) e he; omega
    · have := ihr (dist + 1) (level + 1) e he; omega

theorem bottomStep_pairwise (m : IntMap) (e : Int × Int × Int)
    (h : m.Pairwise (fun a b => a.1 < b.1)) :
    (bottomStep m e).Pairwise (fun a b => a.1 < b.1) := by
  unfold bottomStep
  cases hm : mapFind e.1 m with
  | none =>
    simp only [hm]
    split
    · exact mapInsert_pairwise _ _ _ _ (mapInsert_pairwise _ _ _ _ h)
    · exact mapInsert_pairwise _ _ _ _ h
  | some p =>
    simp only [hm]
    split
    · exact mapInsert_pairwise _ _ _ _ h
    · exact h

theorem topStep_pairwise (m : IntMap) (e : Int × Int × Int)
    (h : m.Pairwise (fun a b => a.1 < b.1)) :
    (topStep m e).Pairwise (fun a b => a.1 < b.1) := by
  unfold topStep
  cases hm : mapFind e.1 m with
  | none =>
    simp only [hm]
    exact mapInsert_pairwise _ _ _ m h
  | some p =>
    simp only [hm]
    split
    · exact mapInsert_pairwise _ _ _ m h
    · exact h

theorem foldl_bottomStep_pairwise :
    ∀ (xs : List (Int × Int × Int)) (m : IntMap),
      m.Pairwise (fun a b => a.1 < b.1) →
      (xs.foldl bottomStep m).Pairwise (fun a b => a.1 < b.1) := by
  intro xs
  induction xs with
  | nil => intro m h; exact h
  | cons e xs ih =>
    intro m h
    rw [List.foldl_cons]
    exact ih _ (bottomStep_pairwise m e h)

theorem foldl_topStep_pairwise :
    ∀ (xs : List (Int × Int × Int)) (m : IntMap),
      m.Pairwise (fun a b => a.1 < b.1) →
      (xs.foldl topStep m).Pairwise (fun a b => a.1 < b.1) := by
  intro xs
  induction xs with
  | nil => intro m h; exact h
  | cons e xs ih =>
    intro m h
    rw [List.foldl_cons]
    exact ih _ (topStep_pairwise m e h)

theorem mapFind_nil (k : Int) : mapFind k [] = none := rfl

/-- Elements of `atKey` over the preorder listing started at level 0 have
non-negative levels. -/
theorem atKey_nonneg (t : NodePtr) (k : Int) :
    ∀ x ∈ atKey k (nodesPre t 0 0), 0 ≤ x.2 := by
  intro x hx
  simp only [atKey, List.mem_map] at hx
  rcases hx with ⟨e, he, hxe⟩
  have h0 := nodesPre_level_le t 0 0 e (List.mem_filter.mp he).1
  subst hxe
  exact h0

/-! Lemmas about the sum transform. -/

theorem sumPostorder_snd (t : NodePtr) : (sumPostorder t).2 = NodePtr.sumValues t := by
  induction t with
  | nil => rfl
  | node d l r ihl ihr =>
    simp only [sumPostorder, NodePtr.sumValues, ihl, ihr]
    ring

theorem sumPostorder_fst (t : NodePtr) : (sumPostorder t).1 = origChildSums t := by
  induction t with
  | nil => rfl
  | node d l r ihl ihr =>
    simp only [sumPostorder, origChildSums, ihl, ihr, sumPostorder_snd]

/-! The read-only operations leave the threaded tree unchanged. -/

theorem inorderRecursiveT_fst (t : NodePtr) : (inorderRecursiveT t).1 = t := by
  induction t with
  | nil => rfl
  | node d l r ihl ihr => simp only [inorderRecursiveT, ihl, ihr]

theorem preorderRecursiveT_fst (t : NodePtr) : (preorderRecursiveT t).1 = t := by
  induction t with
  | nil => rfl
  | node d l r ihl ihr => simp only [preorderRecursiveT, ihl, ihr]

theorem postorderRecursiveT_fst (t : NodePtr) : (postorderRecursiveT t).1 = t := by
  cases t with
  | nil => rfl
  | node d l r => simp only [postorderRecursiveT, inorderRecursiveT_fst]

theorem isIdenticalT_frame :
    ∀ t u : NodePtr, (isIdenticalT t u).1 = t ∧ (isIdenticalT t u).2.1 = u := by
  intro t
  induction t with
  | nil => intro u; cases u <;> exact ⟨rfl, rfl⟩
  | node dx lx rx ihl ihr =>
    intro u
    cases u with
    | nil => exact ⟨rfl, rfl⟩
    | node dy ly ry =>
      cases hd : (dx == dy) with
      | false => simp [isIdenticalT, hd]
      | true =>
        cases hl : (isIdenticalT lx ly).2.2 with
        | false =>
          simp [isIdenticalT, hd, hl, (ihl ly).1, (ihl ly).2]
        | true =>
          simp [isIdenticalT, hd, hl, (ihl ly).1, (ihl ly).2, (ihr ry).1, (ihr ry).2]

theorem printBottomAuxT_fst (t : NodePtr) :
    ∀ (dist level : Int) (m : IntMap), (printBottomAuxT t dist level m).1 = t := by
  induction t with
  | nil => intro dist level m; rfl
  | node d l r ihl ihr =>
    intro dist level m
    simp only [printBottomAuxT, ihl, ihr]

theorem printTopAuxT_fst (t : NodePtr) :
    ∀ (dist level : Int) (m : IntMap), (printTopAuxT t dist level m).1 = t := by
  induction t with
  | nil => intro dist level m; rfl
  | node d l r ihl ihr =>
    intro dist level m
    simp only [printTopAuxT, ihl, ihr]

/-!
Claim theorems.
-/

/-- C1: the claim that every recursive and iterative traversal pair
agrees fails.  At the single-node tree, the iterative inorder traversal
reads the top of its empty auxiliary stack (embedded `none`) while the
recursive one prints the node; at `tChain` (root 1, left child 2 with
right child 3), the recursive postorder prints 2 3 1 — it traverses the
subtrees with `inorderRecursive` — while the iterative postorder prints
the true postorder 3 2 1. -/
theorem c1_recursive_iterative_diverge :
    (inorderIterative (NodePtr.node 1 .nil .nil) = none ∧
      inorderRecursive (NodePtr.node 1 .nil .nil) = [1]) ∧
    (postorderRecursive tChain = [2, 3, 1] ∧
      postorderIterative tChain = some [3, 2, 1]) := by
  refine ⟨⟨rfl, rfl⟩, rfl, ?_⟩
  simp [postorderIterative, tChain, postorderIterLoop, NodePtr.isNil]

/-- C2: the claim that no operation fails on legal input is violated by
`inorderIterative`, which on any non-empty tree — here the single-node
tree — immediately executes `stack.top()` on an empty stack; only the
empty tree completes (with empty output). -/
theorem c2_inorder_iterative_fails :
    inorderIterative (NodePtr.node 1 .nil .nil) = none ∧
    inorderIterative NodePtr.nil = some [] :=
  ⟨rfl, rfl⟩

/-- C3: `postorderRecursive` does not emit the postorder sequence of the
order definition (left, right, self): at `tChain` it prints 2 3 1 — the
inorder of the left subtree followed by the node — while the order
definition gives 3 2 1. -/
theorem c3_postorder_recursive_wrong_order :
    postorderRecursive tChain ≠ postorderOfSpec tChain ∧
    postorderRecursive tChain = [2, 3, 1] ∧ postorderOfSpec tChain = [3, 2, 1] := by
  decide

/-- C4 counterexample: after the transform of the chain 1 - 2 - 3, the
tree is 5 - 3 - 0, and the root's value 5 is not the sum (3) of the
already-rewritten values in its children's subtrees. -/
theorem c4_counterexample : childrenSumNew (sumPostorder tDeep3).1 = false := by
  decide

/-- C4 (amended): the transform rewrites, bottom-up, every node's value
to the sum of the original (pre-rewrite) values of its children's
subtrees — equivalently, of the integers the two recursive calls return —
0 for an absent child, so every leaf's value becomes 0; each recursive
call returns the original sum of its subtree. -/
theorem c4_bottom_up_rewrite (t : NodePtr) :
    (sumPostorder t).1 = origChildSums t ∧ (sumPostorder t).2 = NodePtr.sumValues t :=
  ⟨sumPostorder_fst t, sumPostorder_snd t⟩

/-- C5 counterexample: on the two-node tree `tLeft2` the top-level call
returns 3, which IS the simple sum of the original values and is NOT the
sum of original values plus the sum of transformed non-leaf values
(3 + 2 = 5). -/
theorem c5_counterexample :
    (sumPostorder tLeft2).2 = NodePtr.sumValues tLeft2 ∧
    (sumPostorder tLeft2).2 ≠
      NodePtr.sumValues tLeft2 + nonLeafSum (sumPostorder tLeft2).1 := by
  decide

/-- C5 (amended): the integer returned by the top-level call to the sum
transform equals exactly the simple sum of the original node values; it
does not in general equal that sum plus the transformed non-leaf sum. -/
theorem c5_top_level_return (t : NodePtr) :
    (sumPostorder t).2 = NodePtr.sumValues t ∧
    (sumPostorder tLeft2).2 ≠
      NodePtr.sumValues tLeft2 + nonLeafSum (sumPostorder tLeft2).1 :=
  ⟨sumPostorder_snd t, by decide⟩

/-- C6: the bottom view.  The result map of `printBottomAux` is ordered
by strictly ascending horizontal distance, its domain is exactly the set
of distances occurring in the tree, every stored entry is the value and
level of a node of maximal level at that distance such that every node
visited after it (in preorder) at that distance has strictly smaller
level — i.e. greatest level wins and, on a tie, the later-visited node —
and `printBottom` prints the stored values in that key order. -/
theorem c6_bottom_view (t : NodePtr) :
    (printBottomAux t 0 0 []).Pairwise (fun a b => a.1 < b.1) ∧
    (∀ k : Int, (mapFind k (printBottomAux t 0 0 [])).isSome = true ↔
      k ∈ (nodesPre t 0 0).map (fun e => e.1)) ∧
    (∀ k v lv : Int, mapFind k (printBottomAux t 0 0 []) = some (v, lv) →
      IsBottomWinner (atKey k (nodesPre t 0 0)) (v, lv)) ∧
    printBottom t = (printBottomAux t 0 0 []).map (fun e => e.2.1) := by
  refine ⟨?_, ?_, ?_, rfl⟩
  · rw [printBottomAux_eq_foldl]
    exact foldl_bottomStep_pairwise _ [] (by simp)
  · intro k
    rw [printBottomAux_eq_foldl, mapFind_foldl_bottomStep, mapFind_nil]
    constructor
    · intro h
      rw [← atKey_ne_nil_iff]
      intro hnil
      rw [hnil] at h
      simp at h
    · intro h
      exact foldl_bottomUpd_isSome _ none ((atKey_ne_nil_iff k _).mpr h)
  · intro k v lv h
    rw [printBottomAux_eq_foldl, mapFind_foldl_bottomStep, mapFind_nil] at h
    exact bottom_winner_of_foldl _ _ (atKey_nonneg t k) h

/-- Witness for C6: on the sample tree of `main`, at horizontal distance
0 the stored entry is node 5 at level 2 (beating the root at level 0),
and it is a bottom-view winner. -/
theorem c6_bottom_view_witness :
    mapFind 0 (printBottomAux sampleTree 0 0 []) = some (5, 2) ∧
    IsBottomWinner (atKey 0 (nodesPre sampleTree 0 0)) (5, 2) :=
  ⟨by decide, (c6_bottom_view sampleTree).2.2.1 0 5 2 (by decide)⟩

/-- C7: the top view.  The result map of `printTopAux` is ordered by
strictly ascending horizontal distance, its domain is exactly the set of
distances occurring in the tree, every stored entry is the value and
level of a node of minimal level at that distance such that every node
visited before it (in preorder) at that distance has strictly greater
level — the first recorded node is retained and replaced only on a
strictly smaller level — and `printTop` prints the stored values in that
key order. -/
theorem c7_top_view (t : NodePtr) :
    (printTopAux t 0 0 []).Pairwise (fun a b => a.1 < b.1) ∧
    (∀ k : Int, (mapFind k (printTopAux t 0 0 [])).isSome = true ↔
      k ∈ (nodesPre t 0 0).map (fun e => e.1)) ∧
    (∀ k v lv : Int, mapFind k (printTopAux t 0 0 []) = some (v, lv) →
      IsTopWinner (atKey k (nodesPre t 0 0)) (v, lv)) ∧
    printTop t = (printTopAux t 0 0 []).map (fun e => e.2.1) := by
  refine ⟨?_, ?_, ?_, rfl⟩
  · rw [printTopAux_eq_foldl]
    exact foldl_topStep_pairwise _ [] (by simp)
  · intro k
    rw [printTopAux_eq_foldl, mapFind_foldl_topStep, mapFind_nil]
    constructor
    · intro h
      rw [← atKey_ne_nil_iff]
      intro hnil
      rw [hnil] at h
      simp at h
    · intro h
      exact foldl_topUpd_isSome _ none ((atKey_ne_nil_iff k _).mpr h)
  · intro k v lv h
    rw [printTopAux_eq_foldl, mapFind_foldl_topStep, mapFind_nil] at h
    exact top_winner_of_foldl _ _ h

/-- Witness for C7: on the sample tree of `main`, at horizontal distance
1 the stored entry is node 3 at level 1 (node 8 at level 3 does not
replace it), and it is a top-view winner. -/
theorem c7_top_view_witness :
    mapFind 1 (printTopAux sampleTree 0 0 []) = some (3, 1) ∧
    IsTopWinner (atKey 1 (nodesPre sampleTree 0 0)) (3, 1) :=
  ⟨by decide, (c7_top_view sampleTree).2.2.1 1 3 1 (by decide)⟩

/-- C8 counterexample: on the empty tree both the first and the second
call to the sum transform return 0, so the second call does not return a
different integer for every tree. -/
theorem c8_counterexample :
    (sumPostorder ((sumPostorder NodePtr.nil).1)).2 = (sumPostorder NodePtr.nil).2 :=
  rfl

/-- C8 (amended): the sum transform is not idempotent in general: on the
program's sample tree the second call returns 80 where the first
returned 36. -/
theorem c8_not_idempotent_on_sample :
    (sumPostorder ((sumPostorder sampleTree).1)).2 ≠ (sumPostorder sampleTree).2 := by
  decide

/-- C9: every operation other than the sum transform leaves the tree
unchanged — the threaded embeddings of both recursive traversal families,
of `isIdentical` (both arguments) and of the two view fillers all return
the tree they were given. -/
theorem c9_frame (t u : NodePtr) (dist level : Int) (m : IntMap) :
    (inorderRecursiveT t).1 = t ∧ (preorderRecursiveT t).1 = t ∧
    (postorderRecursiveT t).1 = t ∧ (isIdenticalT t u).1 = t ∧
    (isIdenticalT t u).2.1 = u ∧ (printBottomAuxT t dist level m).1 = t ∧
    (printTopAuxT t dist level m).1 = t :=
  ⟨inorderRecursiveT_fst t, preorderRecursiveT_fst t, postorderRecursiveT_fst t,
    (isIdenticalT_frame t u).1, (isIdenticalT_frame t u).2,
    printBottomAuxT_fst t dist level m, printTopAuxT_fst t dist level m⟩

/-- C10: the integer returned by the top-level call to the sum transform
is exactly the sum of the tree's original (pre-rewrite) node values. -/
theorem c10_returns_original_sum (t : NodePtr) :
    (sumPostorder t).2 = NodePtr.sumValues t :=
  sumPostorder_snd t
